import Mathlib

/-!
Verification of the wilfredwake service orchestrator.

This file gives a shallow embedding of the registry / dependency resolver
(`registry.js`), the orchestrator wake & health state machine
(`orchestrator.js`) and the CLI monitor loop (`wake.js`,
`_monitorServicesForDuration`), and proves the testable properties stated
in the specification against it.
-/

namespace WilfredWake

/-! ## Data model

A validated service definition, as stored in the registry under
`registry.services[environment][name]`.  The mandatory `url` and `health`
fields are present after validation; `dependsOn` is the dependency list,
with a missing field already defaulted to `[]` (the code always reads it
as `service.dependsOn || []`). -/

structure Service where
  url : String
  health : String
  dependsOn : List String
  deriving DecidableEq

/-- An environment: the insertion-ordered mapping service name → service
definition (a JS object, modelled as an association list). -/
abbrev Env := List (String × Service)

/-- `ServiceRegistry.getService(name, environment)`: looks the name up and
returns the definition augmented with its name (`{ name, ...svc }`), or
null. -/
def getService (env : Env) (name : String) : Option (String × Service) :=
  match env.find? (fun p => p.1 == name) with
  | some p => some (name, p.2)
  | none => none

/-- `ServiceRegistry.getServices(environment)`: all entries, in insertion
order, each augmented with its name. -/
def getServices (env : Env) : List (String × Service) :=
  env.map (fun p => (p.1, p.2))

/-- The wake target: the literal string "all", an array of names, or a
single service name (the JS code distinguishes these dynamically). -/
inductive Target where
  | all
  | names (l : List String)
  | single (name : String)
  deriving DecidableEq

/-- Errors of `resolveWakeOrder`.  The source throws a plain `Error` whose
message is "Circular dependency detected involving <name>"; `outOfFuel` is
an artifact of the fueled embedding of the unbounded JS recursion and is
proved unreachable for the fuel bound used by `resolveWakeOrder`. -/
inductive ResolveError where
  | circular (name : String)
  | outOfFuel
  deriving DecidableEq

instance {ε α : Type} [DecidableEq ε] [DecidableEq α] : DecidableEq (Except ε α) := fun x y =>
  match x, y with
  | Except.ok a, Except.ok b =>
    if h : a = b then Decidable.isTrue (congrArg Except.ok h)
    else Decidable.isFalse (fun hh => h (Except.ok.inj hh))
  | Except.error a, Except.error b =>
    if h : a = b then Decidable.isTrue (congrArg Except.error h)
    else Decidable.isFalse (fun hh => h (Except.error.inj hh))
  | Except.ok _, Except.error _ => Decidable.isFalse (fun hh => Except.noConfusion hh)
  | Except.error _, Except.ok _ => Decidable.isFalse (fun hh => Except.noConfusion hh)

/-- The mutable state of the topological-sort traversal in
`resolveWakeOrder`: the `visited` set, the `tempVisited` set and the
`result` list.  Both JS `Set`s are modelled as lists used as sets; adds
and deletes happen in stack discipline, so list membership coincides with
set membership. -/
structure VisitState where
  visited : List String
  temp : List String
  result : List String
  deriving DecidableEq

/-- The recursive `visit` closure of `resolveWakeOrder`, with explicit
fuel (the JS recursion is unbounded; one unit of fuel is consumed per
nesting level).  Dependencies are visited in declaration order via the
fold; a node is emitted after its dependencies (post-order).  Unknown
names are still emitted into `result` (the final `.filter(Boolean)` of
`resolveWakeOrder` drops them). -/
def visit (env : Env) : Nat → String → VisitState → Except ResolveError VisitState
  | 0, _, _ => .error .outOfFuel
  | fuel + 1, name, st =>
    if name ∈ st.visited then .ok st
    else if name ∈ st.temp then .error (.circular name)
    else
      let st1 : VisitState := { st with temp := name :: st.temp }
      match getService env name with
      | some p =>
        match (p.2.dependsOn).foldlM (fun s d => visit env fuel d s) st1 with
        | .error e => .error e
        | .ok st2 =>
          .ok ⟨name :: st2.visited, st2.temp.erase name, st2.result ++ [name]⟩
      | none => .ok ⟨name :: st1.visited, st1.temp.erase name, st1.result ++ [name]⟩

/-- Sequential traversal of a list of names (the fold inside `visit`, and
the top-level `for (const service of targetServices) visit(service.name)`
loop). -/
def visitList (env : Env) (fuel : Nat) (ds : List String) (st : VisitState) :
    Except ResolveError VisitState :=
  ds.foldlM (fun s d => visit env fuel d s) st

/-- Resolution of the target set: "all" takes every service of the
environment, an array is mapped through `getService` and filtered
(`.filter(Boolean)` silently drops unknown names), a single name yields
that service or nothing. -/
def targetServices (env : Env) : Target → List (String × Service)
  | .all => getServices env
  | .names l => l.filterMap (fun n => getService env n)
  | .single n =>
    match getService env n with
    | some s => [s]
    | none => []

/-- Every name the traversal can ever be called on: environment keys, all
declared dependency names, and the names of an explicit target.  Used only
to size the fuel. -/
def allNames (env : Env) (t : Target) : List String :=
  env.map Prod.fst ++ (env.map (fun p => p.2.dependsOn)).flatten ++
    (match t with
     | .all => []
     | .names l => l
     | .single n => [n])

/-- `ServiceRegistry.resolveWakeOrder(target, environment)`: resolve the
target set, run the depth-first traversal from each target in order, then
map the collected names back to service objects, dropping names that do
not resolve (`.map(getService).filter(Boolean)`). -/
def resolveWakeOrder (env : Env) (t : Target) :
    Except ResolveError (List (String × Service)) :=
  match visitList env ((allNames env t).length + 1)
      ((targetServices env t).map Prod.fst) ⟨[], [], []⟩ with
  | .error e => .error e
  | .ok st => .ok (st.result.filterMap (fun n => getService env n))

/-- The traversal run performed by `resolveWakeOrder` (the loop over the
target services), named for the proofs. -/
def resolveRun (env : Env) (t : Target) : Except ResolveError VisitState :=
  visitList env ((allNames env t).length + 1) ((targetServices env t).map Prod.fst)
    ⟨[], [], []⟩

/-! ## Dependency-graph relations used in the statements -/

/-- `Edge env a b`: service `a` resolves in `env` and declares `b` in its
`dependsOn` list. -/
def Edge (env : Env) (a b : String) : Prop :=
  ∃ p, getService env a = some p ∧ b ∈ p.2.dependsOn

/-- Reflexive-transitive reachability along dependency edges. -/
inductive Reach (env : Env) : String → String → Prop
  | refl (a : String) : Reach env a a
  | step {a b c : String} (p : String × Service) :
      getService env a = some p → b ∈ p.2.dependsOn → Reach env b c → Reach env a c

/-- Reachability in at least one step. -/
def ReachPlus (env : Env) (a c : String) : Prop :=
  ∃ b, Edge env a b ∧ Reach env b c

/-- The dependency graph has no cycle among resolving services. -/
def Acyclic (env : Env) : Prop :=
  ∀ n, ¬ ReachPlus env n n

/-- `x` is reachable from the resolved target set. -/
def ReachableFromTarget (env : Env) (t : Target) (x : String) : Prop :=
  ∃ p ∈ targetServices env t, Reach env p.1 x

/-! ## Invariants of the traversal (proof machinery) -/

/-- Order invariant of the emitted list: every dependency of an emitted
resolving service appears strictly before it. -/
def OrderInv (env : Env) (l : List String) : Prop :=
  ∀ l1 a l2, l = l1 ++ a :: l2 →
    ∀ p, getService env a = some p → ∀ d ∈ p.2.dependsOn, d ∈ l1

/-- The global invariant of the traversal state: the result list has no
duplicates and mirrors the visited set, in-progress nodes are not done,
the visited set is closed under dependency edges, and the result is
dependency-ordered. -/
def Inv (env : Env) (st : VisitState) : Prop :=
  st.result.Nodup ∧
  (∀ x, x ∈ st.visited ↔ x ∈ st.result) ∧
  (∀ x ∈ st.temp, x ∉ st.visited) ∧
  (∀ a ∈ st.visited, ∀ p, getService env a = some p →
    ∀ d ∈ p.2.dependsOn, d ∈ st.visited) ∧
  OrderInv env st.result

/-- What a successful `visit name` call guarantees. -/
def VisitOut (env : Env) (name : String) (st st' : VisitState) : Prop :=
  st'.temp = st.temp ∧
  (∀ x, x ∈ st.visited → x ∈ st'.visited) ∧
  name ∈ st'.visited ∧
  (∀ x, x ∈ st'.visited → x ∈ st.visited ∨ (x ∉ st.temp ∧ Reach env name x)) ∧
  (∃ l, st'.result = st.result ++ l) ∧
  (Inv env st → Inv env st')

/-- What a successful `visitList ds` call guarantees. -/
def ListOut (env : Env) (ds : List String) (st st' : VisitState) : Prop :=
  st'.temp = st.temp ∧
  (∀ x, x ∈ st.visited → x ∈ st'.visited) ∧
  (∀ d ∈ ds, d ∈ st'.visited) ∧
  (∀ x, x ∈ st'.visited → x ∈ st.visited ∨
    (x ∉ st.temp ∧ ∃ d ∈ ds, Reach env d x)) ∧
  (∃ l, st'.result = st.result ++ l) ∧
  (Inv env st → Inv env st')

/-! ## Orchestrator: wake & health state machine (`orchestrator.js`)

The HTTP transport is abstracted by `ServiceBehavior`: what the service's
endpoint would do if probed.  All time quantities are in milliseconds.
`_performHealthCheck` issues `axios.get(healthUrl, { timeout: 10000,
validateStatus: () => true })`: any HTTP response is delivered (never
thrown), a network-level failure or the 10 s transport timeout raises, and
the code catches it and reports state `dead`. -/

inductive ServiceState where
  | dead
  | waking
  | live
  | failed
  | unknown
  deriving DecidableEq

/-- Endpoint behavior as seen by the HTTP client: an HTTP response after
`delay` ms with a status code (and optional uptime payload), or a
network-level failure (connection refused, DNS, reset) after `delay` ms. -/
inductive ServiceBehavior where
  | respondsAfter (delay : Nat) (status : Nat) (uptime : Option Nat)
  | failsAfter (delay : Nat) (msg : String)
  deriving DecidableEq

/-- The fixed socket timeout passed to `axios.get` in
`_performHealthCheck` (`timeout: 10000`). -/
def AXIOS_TIMEOUT_MS : Nat := 10000

/-- `this.HEALTH_CHECK_TIMEOUT = 5000`: the slow-response threshold. -/
def HEALTH_CHECK_TIMEOUT : Nat := 5000

/-- Result object of `_performHealthCheck`. -/
structure HealthResult where
  state : ServiceState
  statusCode : Option Nat
  responseTime : Nat
  error : Option String
  uptime : Option Nat
  deriving DecidableEq

/-- `Orchestrator._performHealthCheck(service)`: the raw probe.  A
received response (any status, thanks to `validateStatus: () => true`)
yields `live`, overwritten to `failed` when `status >= 500`.  The catch
branch (network error, or the 10 s transport timeout aborting the wait)
yields `dead` with no status code.  `responseTime` is the measured
`Date.now() - startTime`. -/
def performHealthCheck (b : ServiceBehavior) : HealthResult :=
  match b with
  | .respondsAfter delay status uptime =>
    if delay ≤ AXIOS_TIMEOUT_MS then
      { state := if 500 ≤ status then ServiceState.failed else ServiceState.live,
        statusCode := some status,
        responseTime := delay,
        error := none,
        uptime := uptime }
    else
      { state := ServiceState.dead,
        statusCode := none,
        responseTime := AXIOS_TIMEOUT_MS,
        error := some "timeout of 10000ms exceeded",
        uptime := none }
  | .failsAfter delay msg =>
    { state := ServiceState.dead,
      statusCode := none,
      responseTime := delay,
      error := some msg,
      uptime := none }

/-- `Orchestrator._checkHealthWithTimeout(service, timeoutSeconds)`: the
threshold-based classification used by `wake` and `getStatus`.  Note that
`overallTimeoutMs` is computed from the caller-supplied timeout but never
used afterwards, exactly as in the source; the probe itself never throws,
so the catch branch returning `failed` is unreachable.  The final
`health.state || UNKNOWN` is modelled as `health.state`, which is never a
falsy value. -/
def checkHealthWithTimeout (timeoutSeconds : Nat) (b : ServiceBehavior) : ServiceState :=
  let _overallTimeoutMs := timeoutSeconds * 1000
  let health := performHealthCheck b
  let responseTime := health.responseTime
  if health.state = ServiceState.live then ServiceState.live
  else if HEALTH_CHECK_TIMEOUT < responseTime then ServiceState.waking
  else
    match health.statusCode with
    | some c => if c = 503 ∨ 500 ≤ c then ServiceState.waking else health.state
    | none => health.state

/-- One entry of the `results` list built by `Orchestrator.wake`. -/
structure WakeServiceResult where
  name : String
  status : ServiceState
  url : String
  error : Option String
  deriving DecidableEq

/-- The aggregate object returned by `Orchestrator.wake`. -/
structure WakeOutcome where
  success : Bool
  error : Option String
  services : List WakeServiceResult
  deriving DecidableEq

/-- Message rendering for resolution errors (`error.message` in JS). -/
def errorMessage : ResolveError → String
  | .circular n => "Circular dependency detected involving " ++ n
  | .outOfFuel => "resolution fuel exhausted"

/-- `Orchestrator.wake(target, environment, { wait, timeout })`.  The
resolution error is caught and returned as a failed structured result; an
empty order short-circuits to success; otherwise services are probed
sequentially in resolved order and `success` is `results.every(r =>
r.status === LIVE)`.  The per-service `try` block never throws in this
model (the probe is total), so the catch branch forcing `failed` does not
appear; the internal `serviceStates` / `lastWakeTime` maps are not
modelled since no claim observes them. -/
def wake (env : Env) (t : Target) (behaviors : String → ServiceBehavior)
    (timeoutSeconds : Nat) : WakeOutcome :=
  match resolveWakeOrder env t with
  | .error e => { success := false, error := some (errorMessage e), services := [] }
  | .ok services =>
    if services.length = 0 then { success := true, error := none, services := [] }
    else
      let results := services.map (fun p =>
        { name := p.1,
          status := checkHealthWithTimeout timeoutSeconds (behaviors p.1),
          url := p.2.url,
          error := none : WakeServiceResult })
      { success := results.all (fun r => decide (r.status = ServiceState.live)),
        error := none,
        services := results }

/-! ## Monitor loop (`wake.js`, `_monitorServicesForDuration`)

The loop polls `/api/status` every `pollInterval = 10000` ms while
`Date.now() < endTime`, rendering a status table on success and a warning
on failure (the try/catch never rethrows), then fetches and renders a
final snapshot after the budget expires.  Wall-clock time is discretised:
polls are instantaneous and time advances only by the sleep, so polls
happen at `t = 0, 10000, 20000, ...` while `t < duration`.  The structural
fuel is set to `duration`, far more than the number of scheduled polls, so
the loop is always cut by the time check, never by the fuel. -/

def POLL_INTERVAL_MS : Nat := 10000

/-- Outcome of one `/api/status` request: the services snapshot, or an
axios error. -/
inductive PollOutcome where
  | ok (snapshot : List (String × ServiceState))
  | fail (msg : String)
  deriving DecidableEq

/-- Observable console output of the loop. -/
inductive MonitorEvent where
  | render (pollCount : Nat) (snapshot : List (String × ServiceState))
  | warn (pollCount : Nat) (msg : String)
  | finalRender (snapshot : List (String × ServiceState))
  | finalWarn (msg : String)
  deriving DecidableEq

/-- The body of one loop iteration: render the snapshot, or report the
error and continue. -/
def pollEvent (o : PollOutcome) (count : Nat) : MonitorEvent :=
  match o with
  | .ok snap => .render count snap
  | .fail m => .warn count m

/-- The final fetch-and-render after the budget expires. -/
def finalEvent (o : PollOutcome) : MonitorEvent :=
  match o with
  | .ok snap => .finalRender snap
  | .fail m => .finalWarn m

/-- The `while (Date.now() < endTime)` loop: `polls k` is the outcome of
the `k`-th status request (0-based), `c` the poll counter, `t` the current
time. -/
def monitorLoopT (polls : Nat → PollOutcome) (endTime : Nat) :
    Nat → Nat → Nat → List MonitorEvent
  | 0, _, _ => []
  | f + 1, t, c =>
    if t < endTime then
      pollEvent (polls c) (c + 1) :: monitorLoopT polls endTime f (t + POLL_INTERVAL_MS) (c + 1)
    else []

/-- `_monitorServicesForDuration(url, token, env, target, duration)`:
the polling loop followed by one final snapshot. -/
def monitorServicesForDuration (duration : Nat) (polls : Nat → PollOutcome)
    (finalPoll : PollOutcome) : List MonitorEvent :=
  monitorLoopT polls duration duration 0 0 ++ [finalEvent finalPoll]

/-! ## Registry loading and validation (`registry.js`)

The YAML/JSON parsing is external; the input is the already-parsed tree.
`Option` fields model absent-or-falsy values. -/

/-- The raw `dependsOn` value: an array, or some other truthy value. -/
inductive DependsVal where
  | arr (l : List String)
  | nonArr
  deriving DecidableEq

/-- A raw (unvalidated) service entry. -/
structure RawService where
  url : Option String
  health : Option String
  wake : Option String
  dependsOn : Option DependsVal
  deriving DecidableEq

/-- A raw environment value: a mapping of names to services, or a
non-object value (array or scalar), which validation rejects. -/
inductive EnvVal where
  | map (l : List (String × RawService))
  | nonMap
  deriving DecidableEq

/-- The raw registry tree: `services` may be absent. -/
structure RawRegistry where
  services : Option (List (String × EnvVal))
  deriving DecidableEq

/-- The distinct validation failures of `_validateRegistry` /
`_validateService`, in the order the source checks them. -/
inductive ValidationError where
  | emptyRegistry
  | noServicesKey
  | envNotObject (envName : String)
  | missingUrl (name envName : String)
  | missingHealth (name : String)
  | dependsOnNotArray (name : String)
  deriving DecidableEq

/-- The thrown `Error` messages, verbatim from the source. -/
def validationMessage : ValidationError → String
  | .emptyRegistry => "Registry is empty or invalid"
  | .noServicesKey => "Registry must contain \"services\" key"
  | .envNotObject e => "Services in environment \"" ++ e ++ "\" must be an object"
  | .missingUrl n e =>
    "Service \"" ++ n ++ "\" in environment \"" ++ e ++ "\" must have a URL"
  | .missingHealth n => "Service \"" ++ n ++ "\" must define a health check endpoint"
  | .dependsOnNotArray n => "Service \"" ++ n ++ "\" dependsOn must be an array"

/-- `ServiceRegistry._validateService(name, service, environment)`:
checks `url`, then `health`, then that a present `dependsOn` is an array
(`wake` is optional and not checked). -/
def validateService (name : String) (svc : RawService) (envName : String) :
    Except ValidationError Unit :=
  if svc.url.isNone then .error (.missingUrl name envName)
  else if svc.health.isNone then .error (.missingHealth name)
  else
    match svc.dependsOn with
    | some DependsVal.nonArr => .error (.dependsOnNotArray name)
    | _ => .ok ()

/-- The inner `for (const [name, service] of Object.entries(services))`
loop: first failure wins. -/
def validateServicesOf (envName : String) :
    List (String × RawService) → Except ValidationError Unit
  | [] => .ok ()
  | (n, s) :: rest =>
    match validateService n s envName with
    | .error e => .error e
    | .ok _ => validateServicesOf envName rest

/-- The outer `for (const [env, services] of Object.entries(...))` loop of
`_validateRegistry`. -/
def validateEnvs : List (String × EnvVal) → Except ValidationError Unit
  | [] => .ok ()
  | (envName, EnvVal.nonMap) :: _ => .error (.envNotObject envName)
  | (envName, EnvVal.map l) :: rest =>
    match validateServicesOf envName l with
    | .error e => .error e
    | .ok _ => validateEnvs rest

/-- `ServiceRegistry._validateRegistry(registry)` for a present registry
object: requires the `services` key, then validates each environment. -/
def validateRegistry (r : RawRegistry) : Except ValidationError Unit :=
  match r.services with
  | none => .error .noServicesKey
  | some envs => validateEnvs envs

/-- `ServiceRegistry._indexServices(registry)`: the `env:name` keyed map
rebuilt after successful validation (non-map environments cannot occur
post-validation). -/
def indexServices (r : RawRegistry) : List (String × RawService) :=
  ((r.services.getD []).map (fun p =>
    match p.2 with
    | EnvVal.map l => l.map (fun q => (p.1 ++ ":" ++ q.1, q.2))
    | EnvVal.nonMap => [])).flatten

/-- The mutable fields of a `ServiceRegistry` instance. -/
structure RegistryState where
  registry : Option RawRegistry
  services : List (String × RawService)
  lastLoadTime : Option Nat
  deriving DecidableEq

/-- `ServiceRegistry.loadFromString` on an already-parsed tree (`none`
models a null/empty parse result): validate, then — only on success —
assign `this.registry`, re-index and stamp `lastLoadTime`.  The throw in
the source happens before any assignment, so on failure the old state is
returned untouched, together with the wrapped error message. -/
def loadParsed (st : RegistryState) (tree : Option RawRegistry) (now : Nat) :
    RegistryState × Option String :=
  match tree with
  | none =>
    (st, some ("Failed to load registry: " ++ validationMessage ValidationError.emptyRegistry))
  | some r =>
    match validateRegistry r with
    | .error e => (st, some ("Failed to load registry: " ++ validationMessage e))
    | .ok _ =>
      ({ registry := some r, services := indexServices r, lastLoadTime := some now }, none)

/-- Some service of the tree lacks the mandatory health endpoint field. -/
def LacksHealth (r : RawRegistry) : Prop :=
  ∃ envName l n s, (envName, EnvVal.map l) ∈ r.services.getD [] ∧
    (n, s) ∈ l ∧ s.health = none

/-- A validation error is truthful for a tree when the violation it
reports actually holds there. -/
def TruthfulFor (r : RawRegistry) : ValidationError → Prop
  | .emptyRegistry => False
  | .noServicesKey => r.services = none
  | .envNotObject e => (e, EnvVal.nonMap) ∈ r.services.getD []
  | .missingUrl n e => ∃ l s, (e, EnvVal.map l) ∈ r.services.getD [] ∧
      (n, s) ∈ l ∧ s.url = none
  | .missingHealth n => ∃ e l s, (e, EnvVal.map l) ∈ r.services.getD [] ∧
      (n, s) ∈ l ∧ s.url.isSome = true ∧ s.health = none
  | .dependsOnNotArray n => ∃ e l s, (e, EnvVal.map l) ∈ r.services.getD [] ∧
      (n, s) ∈ l ∧ s.dependsOn = some DependsVal.nonArr

/-! ## Concrete data for the witnesses -/

def exSvc : Service := ⟨"http://auth.internal", "/health", []⟩

def exEnv : Env := [("auth", exSvc)]

def cycSvc : Service := ⟨"http://a.internal", "/health", ["a"]⟩

def cycEnv : Env := [("a", cycSvc)]

def ghostSvc : Service := ⟨"http://g.internal", "/health", ["ghost"]⟩

def ghostEnv : Env := [("g", ghostSvc)]

def exBehaviors : String → ServiceBehavior :=
  fun _ => ServiceBehavior.respondsAfter 100 200 none

def exPolls : Nat → PollOutcome :=
  fun k => if k = 1 then .fail "connect ECONNREFUSED" else .ok [("auth", ServiceState.live)]

def exFinalPoll : PollOutcome := .ok [("auth", ServiceState.live)]

/-- A raw service with neither url nor health. -/
def rcSvc : RawService := ⟨none, none, none, none⟩

def rcReg : RawRegistry := ⟨some [("dev", EnvVal.map [("a", rcSvc)])]⟩

/-- A raw service with a url but no health endpoint. -/
def rwSvc : RawService := ⟨some "http://x.internal", none, none, none⟩

def rwReg : RawRegistry := ⟨some [("dev", EnvVal.map [("a", rwSvc)])]⟩

def emptyRegState : RegistryState := ⟨none, [], none⟩

/-! ## Basic lemmas -/

theorem getService_name {env : Env} {n : String} {p : String × Service}
    (h : getService env n = some p) : p.1 = n := by
  unfold getService at h
  cases hf : env.find? (fun q => q.1 == n) with
  | none => rw [hf] at h; cases h
  | some q => rw [hf] at h; cases h; rfl

theorem getService_mem {env : Env} {n : String} {p : String × Service}
    (h : getService env n = some p) : ∃ q ∈ env, q.1 = n ∧ p = (n, q.2) := by
  unfold getService at h
  cases hf : env.find? (fun q => q.1 == n) with
  | none => rw [hf] at h; cases h
  | some q =>
    rw [hf] at h
    cases h
    refine ⟨q, List.mem_of_find?_eq_some hf, ?_, rfl⟩
    have := List.find?_some hf
    exact eq_of_beq this

theorem reach_extend {env : Env} {b c d : String} (h : Reach env b c)
    (p : String × Service) (hp : getService env c = some p) (hd : d ∈ p.2.dependsOn) :
    Reach env b d := by
  induction h with
  | refl a => exact Reach.step p hp hd (Reach.refl d)
  | step q hq hbq _ ih => exact Reach.step q hq hbq (ih hp)

theorem concat_eq_append_cons {α : Type} {l l1 l2 : List α} {x a : α}
    (h : l ++ [x] = l1 ++ a :: l2) :
    (l1 = l ∧ a = x ∧ l2 = []) ∨ ∃ l2', l2 = l2' ++ [x] ∧ l = l1 ++ a :: l2' := by
  rcases List.eq_nil_or_concat l2 with rfl | ⟨l2', y, rfl⟩
  · have := List.append_inj' h rfl
    exact Or.inl ⟨this.1.symm, ((List.cons.injEq _ _ _ _).mp this.2).1.symm, rfl⟩
  · right
    rw [List.concat_eq_append,
      show l1 ++ a :: (l2' ++ [y]) = (l1 ++ a :: l2') ++ [y] by simp] at h
    have := List.append_inj' h rfl
    obtain ⟨h1, h2⟩ := this
    cases ((List.cons.injEq _ _ _ _).mp h2).1
    exact ⟨l2', by simp, h1⟩

theorem orderInv_nil (env : Env) : OrderInv env [] := by
  intro l1 a l2 h
  exact absurd h.symm (List.append_ne_nil_of_right_ne_nil l1 (List.cons_ne_nil a l2))

theorem orderInv_append {env : Env} {r : List String} {name : String}
    (ho : OrderInv env r)
    (hdeps : ∀ p, getService env name = some p → ∀ d ∈ p.2.dependsOn, d ∈ r) :
    OrderInv env (r ++ [name]) := by
  intro l1 a l2 h p hp d hd
  rcases concat_eq_append_cons h with ⟨rfl, rfl, rfl⟩ | ⟨l2', _, hr⟩
  · exact hdeps p hp d hd
  · exact ho l1 a l2' hr p hp d hd

theorem inv_init (env : Env) : Inv env ⟨[], [], []⟩ := by
  refine ⟨List.nodup_nil, ?_, ?_, ?_, orderInv_nil env⟩
  · intro x; simp
  · intro x hx; simp at hx
  · intro a ha; simp at ha

/-! ## Unfolding lemmas for the traversal -/

theorem visit_succ (env : Env) (fuel : Nat) (name : String) (st : VisitState) :
    visit env (fuel + 1) name st =
      if name ∈ st.visited then .ok st
      else if name ∈ st.temp then .error (.circular name)
      else
        match getService env name with
        | some p =>
          match visitList env fuel p.2.dependsOn { st with temp := name :: st.temp } with
          | .error e => .error e
          | .ok st2 => .ok ⟨name :: st2.visited, st2.temp.erase name, st2.result ++ [name]⟩
        | none =>
          .ok ⟨name :: st.visited, (name :: st.temp).erase name, st.result ++ [name]⟩ := rfl

theorem visit_zero (env : Env) (name : String) (st : VisitState) :
    visit env 0 name st = .error .outOfFuel := rfl

theorem visitList_nil (env : Env) (fuel : Nat) (st : VisitState) :
    visitList env fuel [] st = .ok st := rfl

theorem visitList_cons (env : Env) (fuel : Nat) (d : String) (ds : List String)
    (st : VisitState) :
    visitList env fuel (d :: ds) st =
      match visit env fuel d st with
      | .error e => .error e
      | .ok st1 => visitList env fuel ds st1 := by
  unfold visitList
  rw [List.foldlM_cons]
  cases visit env fuel d st <;> rfl

/-! ## Invariant preservation -/

theorem inv_push_temp {env : Env} {st : VisitState} {name : String}
    (inv : Inv env st) (h1 : name ∉ st.visited) :
    Inv env { st with temp := name :: st.temp } := by
  obtain ⟨nd, sync, disj, closed, ord⟩ := inv
  refine ⟨nd, sync, ?_, closed, ord⟩
  intro x hx
  rcases List.mem_cons.mp hx with rfl | hx
  · exact h1
  · exact disj x hx

theorem listOut_nil_state {env : Env} {ds : List String} {st : VisitState}
    (h : ds = []) : ListOut env ds st st := by
  subst h
  refine ⟨rfl, fun x hx => hx, ?_, ?_, ⟨[], by simp⟩, id⟩
  · intro d hd; simp at hd
  · intro x hx; exact Or.inl hx

theorem listOut_comp {env : Env} {d : String} {ds : List String}
    {st stm st' : VisitState}
    (V : VisitOut env d st stm) (L : ListOut env ds stm st') :
    ListOut env (d :: ds) st st' := by
  obtain ⟨Vt, Vm, Vd, Vn, ⟨lv, Vr⟩, Vi⟩ := V
  obtain ⟨Lt, Lm, La, Ln, ⟨ll, Lr⟩, Li⟩ := L
  refine ⟨Lt.trans Vt, fun x hx => Lm x (Vm x hx), ?_, ?_, ⟨lv ++ ll, by rw [Lr, Vr, List.append_assoc]⟩, fun i => Li (Vi i)⟩
  · intro e he
    rcases List.mem_cons.mp he with rfl | he
    · exact Lm e Vd
    · exact La e he
  · intro x hx
    rcases Ln x hx with hx' | ⟨hnt, e, he, hr⟩
    · rcases Vn x hx' with h | ⟨hnt, hr⟩
      · exact Or.inl h
      · exact Or.inr ⟨hnt, d, List.mem_cons_self d ds, hr⟩
    · rw [Vt] at hnt
      exact Or.inr ⟨hnt, e, List.mem_cons_of_mem d he, hr⟩

theorem finish_inv_some {env : Env} {name : String} {p : String × Service}
    {st st2 : VisitState}
    (hs : getService env name = some p)
    (h1 : name ∉ st.visited) (h2 : name ∉ st.temp)
    (D : ListOut env p.2.dependsOn { st with temp := name :: st.temp } st2)
    (inv : Inv env st) :
    Inv env ⟨name :: st2.visited, st2.temp.erase name, st2.result ++ [name]⟩ := by
  obtain ⟨Dt, Dm, Da, Dn, ⟨lr, Dr⟩, Di⟩ := D
  have inv2 : Inv env st2 := Di (inv_push_temp inv h1)
  obtain ⟨nd2, sync2, disj2, closed2, ord2⟩ := inv2
  have hnv : name ∉ st2.visited := by
    intro hmem
    rcases Dn name hmem with h | ⟨hnt, _⟩
    · exact h1 h
    · exact hnt (List.mem_cons_self name st.temp)
  have hnr : name ∉ st2.result := fun hr => hnv ((sync2 name).mpr hr)
  refine ⟨?_, ?_, ?_, ?_, ?_⟩
  · rw [List.nodup_append]
    exact ⟨nd2, List.nodup_singleton name, by
      intro a ha ha'
      rcases List.mem_singleton.mp ha' with rfl
      exact hnr ha⟩
  · intro x
    simp only [List.mem_cons, List.mem_append, List.mem_singleton]
    rw [sync2 x]
    tauto
  · intro x hx
    rw [show st2.temp = name :: st.temp from Dt, List.erase_cons_head] at hx
    intro hv
    rcases List.mem_cons.mp hv with rfl | hv
    · exact h2 hx
    · rcases Dn x hv with h | ⟨hnt, _⟩
      · exact (inv.2.2.1 x hx) h
      · exact hnt (List.mem_cons_of_mem name hx)
  · intro a ha q hq e he
    rcases List.mem_cons.mp ha with rfl | ha
    · rw [hs] at hq
      cases hq
      exact List.mem_cons_of_mem _ (Da e he)
    · exact List.mem_cons_of_mem _ (closed2 a ha q hq e he)
  · refine orderInv_append ord2 ?_
    intro q hq e he
    rw [hs] at hq
    cases hq
    exact (sync2 e).mp (Da e he)

theorem finish_inv_none {env : Env} {name : String} {st : VisitState}
    (hs : getService env name = none)
    (h1 : name ∉ st.visited) (h2 : name ∉ st.temp)
    (inv : Inv env st) :
    Inv env ⟨name :: st.visited, (name :: st.temp).erase name, st.result ++ [name]⟩ := by
  obtain ⟨nd, sync, disj, closed, ord⟩ := inv
  have hnr : name ∉ st.result := fun hr => h1 ((sync name).mpr hr)
  refine ⟨?_, ?_, ?_, ?_, ?_⟩
  · rw [List.nodup_append]
    exact ⟨nd, List.nodup_singleton name, by
      intro a ha ha'
      rcases List.mem_singleton.mp ha' with rfl
      exact hnr ha⟩
  · intro x
    simp only [List.mem_cons, List.mem_append, List.mem_singleton]
    rw [sync x]
    tauto
  · intro x hx
    rw [List.erase_cons_head] at hx
    intro hv
    rcases List.mem_cons.mp hv with rfl | hv
    · exact h2 hx
    · exact disj x hx hv
  · intro a ha q hq e he
    rcases List.mem_cons.mp ha with rfl | ha
    · rw [hs] at hq; cases hq
    · exact List.mem_cons_of_mem _ (closed a ha q hq e he)
  · refine orderInv_append ord ?_
    intro q hq
    rw [hs] at hq; cases hq

/-- Main structural lemma of the traversal: every successful `visit` (resp.
`visitList`) call preserves the state invariant, keeps the in-progress set,
grows the visited set exactly by nodes reachable from the visited name(s),
and appends to the result. -/
theorem visit_spec (env : Env) : ∀ fuel : Nat,
    (∀ name st st', visit env fuel name st = .ok st' → VisitOut env name st st') ∧
    (∀ ds st st', visitList env fuel ds st = .ok st' → ListOut env ds st st') := by
  intro fuel
  induction fuel with
  | zero =>
    constructor
    · intro name st st' h
      rw [visit_zero] at h
      cases h
    · intro ds
      induction ds with
      | nil =>
        intro st st' h
        rw [visitList_nil] at h
        cases h
        exact listOut_nil_state rfl
      | cons d ds ih =>
        intro st st' h
        rw [visitList_cons, visit_zero] at h
        cases h
  | succ n IH =>
    have hv : ∀ name st st', visit env (n + 1) name st = .ok st' →
        VisitOut env name st st' := by
      intro name st st' h
      rw [visit_succ] at h
      by_cases h1 : name ∈ st.visited
      · rw [if_pos h1] at h
        cases h
        exact ⟨rfl, fun x hx => hx, h1, fun x hx => Or.inl hx, ⟨[], by simp⟩, id⟩
      · rw [if_neg h1] at h
        by_cases h2 : name ∈ st.temp
        · rw [if_pos h2] at h
          cases h
        · rw [if_neg h2] at h
          cases hs : getService env name with
          | some p =>
            rw [hs] at h
            dsimp only at h
            cases hd : visitList env n p.2.dependsOn { st with temp := name :: st.temp } with
            | error e =>
              rw [hd] at h
              cases h
            | ok st2 =>
              rw [hd] at h
              cases h
              have D := IH.2 p.2.dependsOn { st with temp := name :: st.temp } st2 hd
              have D' := D
              obtain ⟨Dt, Dm, Da, Dn, ⟨lr, Dr⟩, Di⟩ := D'
              refine ⟨?_, ?_, List.mem_cons_self name _, ?_, ?_, ?_⟩
              · rw [show st2.temp = name :: st.temp from Dt, List.erase_cons_head]
              · intro x hx
                exact List.mem_cons_of_mem name (Dm x hx)
              · intro x hx
                rcases List.mem_cons.mp hx with rfl | hv2
                · exact Or.inr ⟨h2, Reach.refl x⟩
                · rcases Dn x hv2 with hh | ⟨hnt, e, he, hr⟩
                  · exact Or.inl hh
                  · exact Or.inr ⟨fun hx' => hnt (List.mem_cons_of_mem name hx'),
                      Reach.step p hs he hr⟩
              · exact ⟨lr ++ [name], by
                  show st2.result ++ [name] = st.result ++ (lr ++ [name])
                  rw [show st2.result = st.result ++ lr from Dr, List.append_assoc]⟩
              · intro inv
                exact finish_inv_some hs h1 h2 D inv
          | none =>
            rw [hs] at h
            dsimp only at h
            cases h
            refine ⟨?_, ?_, List.mem_cons_self name _, ?_, ⟨[name], rfl⟩, ?_⟩
            · rw [List.erase_cons_head]
            · intro x hx
              exact List.mem_cons_of_mem name hx
            · intro x hx
              rcases List.mem_cons.mp hx with rfl | hv2
              · exact Or.inr ⟨h2, Reach.refl x⟩
              · exact Or.inl hv2
            · intro inv
              exact finish_inv_none hs h1 h2 inv
    refine ⟨hv, ?_⟩
    intro ds
    induction ds with
    | nil =>
      intro st st' h
      rw [visitList_nil] at h
      cases h
      exact listOut_nil_state rfl
    | cons d ds ih =>
      intro st st' h
      rw [visitList_cons] at h
      cases hm : visit env (n + 1) d st with
      | error e =>
        rw [hm] at h
        cases h
      | ok stm =>
        rw [hm] at h
        exact listOut_comp (hv d st stm hm) (ih stm st' h)

/-- With fuel exceeding the number of names not yet in progress, the
traversal never runs out of fuel: each nesting level moves a fresh name
from the finite universe `U` into the in-progress set. -/
theorem visit_has_fuel (env : Env) (U : Finset String)
    (hU : ∀ n p, getService env n = some p → ∀ d ∈ p.2.dependsOn, d ∈ U) :
    ∀ fuel : Nat,
    (∀ name st, name ∈ U → (∀ x ∈ st.temp, x ∈ U) →
      (U \ st.temp.toFinset).card < fuel → visit env fuel name st ≠ .error .outOfFuel) ∧
    (∀ ds st, (∀ d ∈ ds, d ∈ U) → (∀ x ∈ st.temp, x ∈ U) →
      (U \ st.temp.toFinset).card < fuel → visitList env fuel ds st ≠ .error .outOfFuel) := by
  intro fuel
  induction fuel with
  | zero =>
    constructor
    · intro name st _ _ hcard
      exact absurd hcard (Nat.not_lt_zero _)
    · intro ds st _ _ hcard
      exact absurd hcard (Nat.not_lt_zero _)
  | succ n IH =>
    have hv : ∀ name st, name ∈ U → (∀ x ∈ st.temp, x ∈ U) →
        (U \ st.temp.toFinset).card < n + 1 → visit env (n + 1) name st ≠ .error .outOfFuel := by
      intro name st hn ht hcard
      rw [visit_succ]
      by_cases h1 : name ∈ st.visited
      · rw [if_pos h1]; simp
      · rw [if_neg h1]
        by_cases h2 : name ∈ st.temp
        · rw [if_pos h2]; simp
        · rw [if_neg h2]
          have htemp1 : ∀ x ∈ (name :: st.temp), x ∈ U := by
            intro x hx
            rcases List.mem_cons.mp hx with rfl | hx
            · exact hn
            · exact ht x hx
          have hmem : name ∈ U \ st.temp.toFinset :=
            Finset.mem_sdiff.mpr ⟨hn, fun hc => h2 (List.mem_toFinset.mp hc)⟩
          have hset : U \ (name :: st.temp).toFinset = (U \ st.temp.toFinset).erase name := by
            ext a
            simp only [Finset.mem_sdiff, List.toFinset_cons, Finset.mem_insert,
              Finset.mem_erase, List.mem_toFinset]
            tauto
          have hcard2 : (U \ (name :: st.temp).toFinset).card < n := by
            rw [hset, Finset.card_erase_of_mem hmem]
            have hpos : 0 < (U \ st.temp.toFinset).card :=
              Finset.card_pos.mpr ⟨name, hmem⟩
            omega
          cases hs : getService env name with
          | some p =>
            dsimp only
            cases hd : visitList env n p.2.dependsOn { st with temp := name :: st.temp } with
            | error e =>
              have hne := IH.2 p.2.dependsOn { st with temp := name :: st.temp }
                (hU name p hs) htemp1 hcard2
              rw [hd] at hne
              dsimp only
              intro hh
              injection hh with h3
              exact hne (by rw [h3])
            | ok st2 => dsimp only; simp
          | none => dsimp only; simp
    refine ⟨hv, ?_⟩
    intro ds
    induction ds with
    | nil =>
      intro st _ _ _
      rw [visitList_nil]
      simp
    | cons d ds ih =>
      intro st hds ht hcard
      rw [visitList_cons]
      cases hm : visit env (n + 1) d st with
      | error e =>
        have hne := hv d st (hds d (List.mem_cons_self d ds)) ht hcard
        rw [hm] at hne
        dsimp only
        exact hne
      | ok stm =>
        dsimp only
        have htemp : stm.temp = st.temp := ((visit_spec env (n + 1)).1 d st stm hm).1
        refine ih stm (fun e he => hds e (List.mem_cons_of_mem d he)) ?_ ?_
        · intro x hx
          exact ht x (htemp ▸ hx)
        · rw [htemp]
          exact hcard

/-- On an acyclic graph the traversal never reports a circular dependency,
provided every in-progress node has a nonempty dependency path to the node
being visited (which is how `visit` is always called). -/
theorem visit_not_circular (env : Env) (hA : Acyclic env) : ∀ fuel : Nat,
    (∀ name st m, (∀ x ∈ st.temp, ReachPlus env x name) →
      visit env fuel name st ≠ .error (.circular m)) ∧
    (∀ ds st m, (∀ x ∈ st.temp, ∀ d ∈ ds, ReachPlus env x d) →
      visitList env fuel ds st ≠ .error (.circular m)) := by
  intro fuel
  induction fuel with
  | zero =>
    constructor
    · intro name st m _
      rw [visit_zero]
      simp
    · intro ds st m _
      cases ds with
      | nil => rw [visitList_nil]; simp
      | cons d ds => rw [visitList_cons, visit_zero]; simp
  | succ n IH =>
    have hv : ∀ name st m, (∀ x ∈ st.temp, ReachPlus env x name) →
        visit env (n + 1) name st ≠ .error (.circular m) := by
      intro name st m hchain
      rw [visit_succ]
      by_cases h1 : name ∈ st.visited
      · rw [if_pos h1]; simp
      · rw [if_neg h1]
        by_cases h2 : name ∈ st.temp
        · exact absurd (hchain name h2) (hA name)
        · rw [if_neg h2]
          cases hs : getService env name with
          | some p =>
            dsimp only
            have hchain1 : ∀ x ∈ (name :: st.temp), ∀ d ∈ p.2.dependsOn,
                ReachPlus env x d := by
              intro x hx d hd
              rcases List.mem_cons.mp hx with rfl | hx
              · exact ⟨d, ⟨p, hs, hd⟩, Reach.refl d⟩
              · obtain ⟨b, hb, hr⟩ := hchain x hx
                exact ⟨b, hb, reach_extend hr p hs hd⟩
            cases hd : visitList env n p.2.dependsOn { st with temp := name :: st.temp } with
            | error e =>
              have hne := IH.2 p.2.dependsOn { st with temp := name :: st.temp } m hchain1
              rw [hd] at hne
              dsimp only
              exact hne
            | ok st2 => dsimp only; simp
          | none => dsimp only; simp
    refine ⟨hv, ?_⟩
    intro ds
    induction ds with
    | nil =>
      intro st m _
      rw [visitList_nil]
      simp
    | cons d ds ih =>
      intro st m hchain
      rw [visitList_cons]
      cases hm : visit env (n + 1) d st with
      | error e =>
        have hne := hv d st m (fun x hx => hchain x hx d (List.mem_cons_self d ds))
        rw [hm] at hne
        dsimp only
        exact hne
      | ok stm =>
        dsimp only
        have htemp : stm.temp = st.temp := ((visit_spec env (n + 1)).1 d st stm hm).1
        exact ih stm m (fun x hx e he => hchain x (htemp ▸ hx) e (List.mem_cons_of_mem d he))

/-- Fuel monotonicity: any outcome other than fuel exhaustion is stable
under increasing the fuel. -/
theorem visit_fuel_mono (env : Env) : ∀ fuel fuel' : Nat, fuel ≤ fuel' →
    (∀ name st r, visit env fuel name st = r → r ≠ .error .outOfFuel →
      visit env fuel' name st = r) ∧
    (∀ ds st r, visitList env fuel ds st = r → r ≠ .error .outOfFuel →
      visitList env fuel' ds st = r) := by
  intro fuel
  induction fuel with
  | zero =>
    intro fuel' _
    constructor
    · intro name st r h hne
      rw [visit_zero] at h
      exact absurd h.symm hne
    · intro ds st r h hne
      cases ds with
      | nil =>
        rw [visitList_nil] at h
        rw [visitList_nil]
        exact h
      | cons d ds =>
        rw [visitList_cons, visit_zero] at h
        dsimp only at h
        exact absurd h.symm hne
  | succ n IH =>
    intro fuel' hle
    obtain ⟨m, rfl⟩ : ∃ m, fuel' = m + 1 := ⟨fuel' - 1, by omega⟩
    have hnm : n ≤ m := by omega
    have hv : ∀ name st r, visit env (n + 1) name st = r → r ≠ .error .outOfFuel →
        visit env (m + 1) name st = r := by
      intro name st r h hne
      rw [visit_succ] at h ⊢
      by_cases h1 : name ∈ st.visited
      · rw [if_pos h1] at h ⊢; exact h
      · rw [if_neg h1] at h ⊢
        by_cases h2 : name ∈ st.temp
        · rw [if_pos h2] at h ⊢; exact h
        · rw [if_neg h2] at h ⊢
          cases hs : getService env name with
          | some p =>
            rw [hs] at h
            dsimp only at h ⊢
            cases hd : visitList env n p.2.dependsOn { st with temp := name :: st.temp } with
            | error e =>
              rw [hd] at h
              dsimp only at h
              have he : e ≠ .outOfFuel := by
                intro hee
                rw [hee] at h
                exact hne h.symm
              have hlift := (IH m hnm).2 p.2.dependsOn { st with temp := name :: st.temp }
                (Except.error e) hd (by intro hh; injection hh with h3; exact he h3)
              rw [hlift]
              dsimp only
              exact h
            | ok st2 =>
              rw [hd] at h
              dsimp only at h
              have hlift := (IH m hnm).2 p.2.dependsOn { st with temp := name :: st.temp }
                (Except.ok st2) hd (by simp)
              rw [hlift]
              dsimp only
              exact h
          | none =>
            rw [hs] at h
            dsimp only at h ⊢
            exact h
    refine ⟨hv, ?_⟩
    intro ds
    induction ds with
    | nil =>
      intro st r h hne
      rw [visitList_nil] at h
      rw [visitList_nil]
      exact h
    | cons d ds ih =>
      intro st r h hne
      rw [visitList_cons] at h ⊢
      cases hm : visit env (n + 1) d st with
      | error e =>
        rw [hm] at h
        dsimp only at h
        have he : e ≠ .outOfFuel := by
          intro hee
          rw [hee] at h
          exact hne h.symm
        rw [hv d st (Except.error e) hm (by intro hh; injection hh with h3; exact he h3)]
        dsimp only
        exact h
      | ok stm =>
        rw [hm] at h
        dsimp only at h
        rw [hv d st (Except.ok stm) hm (by simp)]
        dsimp only
        exact ih stm r h hne

/-! ## Assembling the resolver theorems -/

theorem resolveWakeOrder_eq_run (env : Env) (t : Target) :
    resolveWakeOrder env t =
      match resolveRun env t with
      | .error e => .error e
      | .ok st => .ok (st.result.filterMap (fun n => getService env n)) := rfl

theorem filterMap_getService_names (env : Env) (l : List String) :
    (l.filterMap (fun n => getService env n)).map Prod.fst =
      l.filter (fun n => (getService env n).isSome) := by
  induction l with
  | nil => rfl
  | cons n l ih =>
    cases hs : getService env n with
    | none => simp [List.filterMap_cons, List.filter_cons, hs, ih]
    | some p =>
      have hn : p.1 = n := getService_name hs
      simp [List.filterMap_cons, List.filter_cons, hs, ih, hn]

theorem visited_closed_reach {env : Env} {st : VisitState}
    (closed : ∀ a ∈ st.visited, ∀ p, getService env a = some p →
      ∀ d ∈ p.2.dependsOn, d ∈ st.visited) :
    ∀ a x, Reach env a x → a ∈ st.visited → x ∈ st.visited := by
  intro a x hr
  induction hr with
  | refl a => exact fun h => h
  | step p hp hd _ ih => exact fun ha => ih (closed _ ha p hp _ hd)

theorem indexOf_lt_of_append {L1 L2 : List String} {a d : String}
    (hnd : (L1 ++ a :: L2).Nodup) (hd : d ∈ L1) :
    (L1 ++ a :: L2).indexOf d < (L1 ++ a :: L2).indexOf a := by
  induction L1 with
  | nil => simp at hd
  | cons x L1 ih =>
    rw [List.cons_append, List.nodup_cons] at hnd
    obtain ⟨hx, hnd⟩ := hnd
    have hax : a ≠ x := by
      intro hh
      exact hx (hh ▸ List.mem_append_right L1 (List.mem_cons_self a L2))
    rcases List.mem_cons.mp hd with heq | hd'
    · subst heq
      rw [List.cons_append, List.indexOf_cons_self, List.indexOf_cons_ne _ (Ne.symm hax)]
      exact Nat.succ_pos _
    · have hdx : x ≠ d := by
        intro hh
        subst hh
        exact hx (List.mem_append_left _ hd')
      rw [List.cons_append, List.indexOf_cons_ne _ hdx,
        List.indexOf_cons_ne _ (Ne.symm hax)]
      exact Nat.succ_lt_succ (ih hnd hd')

theorem allNames_deps_closed (env : Env) (t : Target) :
    ∀ n p, getService env n = some p → ∀ d ∈ p.2.dependsOn,
      d ∈ (allNames env t).toFinset := by
  intro n p hp d hd
  obtain ⟨q, hq, _, rfl⟩ := getService_mem hp
  rw [List.mem_toFinset]
  unfold allNames
  refine List.mem_append_left _ (List.mem_append_right _ ?_)
  exact List.mem_flatten.mpr ⟨q.2.dependsOn, List.mem_map.mpr ⟨q, hq, rfl⟩, hd⟩

theorem targetNames_sub (env : Env) (t : Target) :
    ∀ x ∈ (targetServices env t).map Prod.fst, x ∈ (allNames env t).toFinset := by
  intro x hx
  rw [List.mem_toFinset]
  unfold allNames
  obtain ⟨pr, hpr, rfl⟩ := List.mem_map.mp hx
  cases t with
  | all =>
    refine List.mem_append_left _ (List.mem_append_left _ ?_)
    unfold targetServices getServices at hpr
    obtain ⟨q, hq, rfl⟩ := List.mem_map.mp hpr
    exact List.mem_map.mpr ⟨q, hq, rfl⟩
  | names l =>
    refine List.mem_append_right _ ?_
    unfold targetServices at hpr
    obtain ⟨n, hn, hsv⟩ := List.mem_filterMap.mp hpr
    have := getService_name hsv
    rw [this]
    exact hn
  | single n =>
    unfold targetServices at hpr
    dsimp only at hpr
    refine List.mem_append_right _ ?_
    dsimp only
    cases hs : getService env n with
    | none => rw [hs] at hpr; simp at hpr
    | some s =>
      rw [hs] at hpr
      dsimp only at hpr
      rcases List.mem_singleton.mp hpr with rfl
      rw [getService_name hs]
      exact List.mem_singleton.mpr rfl

theorem resolveRun_not_outOfFuel (env : Env) (t : Target) :
    resolveRun env t ≠ .error .outOfFuel := by
  refine (visit_has_fuel env (allNames env t).toFinset (allNames_deps_closed env t)
    ((allNames env t).length + 1)).2 ((targetServices env t).map Prod.fst)
    ⟨[], [], []⟩ (targetNames_sub env t) ?_ ?_
  · intro x hx
    simp at hx
  · calc ((allNames env t).toFinset \ ([] : List String).toFinset).card
        = (allNames env t).toFinset.card := by simp
      _ ≤ (allNames env t).length := List.toFinset_card_le _
      _ < (allNames env t).length + 1 := Nat.lt_succ_self _

theorem resolve_not_outOfFuel (env : Env) (t : Target) :
    resolveWakeOrder env t ≠ .error .outOfFuel := by
  rw [resolveWakeOrder_eq_run]
  cases hr : resolveRun env t with
  | ok st => simp
  | error e =>
    dsimp only
    intro hh
    injection hh with h3
    exact resolveRun_not_outOfFuel env t (by rw [hr, h3])

theorem resolve_error_run {env : Env} {t : Target} {e : ResolveError}
    (h : resolveWakeOrder env t = .error e) : resolveRun env t = .error e := by
  rw [resolveWakeOrder_eq_run] at h
  cases hr : resolveRun env t with
  | ok st => rw [hr] at h; cases h
  | error e' =>
    rw [hr] at h
    dsimp only at h
    injection h with h3
    rw [h3]

theorem resolve_ok_run {env : Env} {t : Target} {out : List (String × Service)}
    (h : resolveWakeOrder env t = .ok out) :
    ∃ st, resolveRun env t = .ok st ∧
      out = st.result.filterMap (fun n => getService env n) := by
  rw [resolveWakeOrder_eq_run] at h
  cases hr : resolveRun env t with
  | error e => rw [hr] at h; cases h
  | ok st =>
    rw [hr] at h
    dsimp only at h
    injection h with h3
    exact ⟨st, rfl, h3.symm⟩

/-- Everything a successful resolution guarantees: the returned services
are exactly the reachable resolving names (without duplicates), and every
resolving dependency of a returned service precedes it. -/
theorem resolve_ok_facts {env : Env} {t : Target} {out : List (String × Service)}
    (h : resolveWakeOrder env t = .ok out) :
    (∀ x, ReachableFromTarget env t x → (getService env x).isSome = true →
      x ∈ out.map Prod.fst) ∧
    (out.map Prod.fst).Nodup ∧
    (∀ x ∈ out.map Prod.fst, ReachableFromTarget env t x ∧
      (getService env x).isSome = true) ∧
    (∀ a s, (a, s) ∈ out → ∀ d ∈ s.dependsOn, (getService env d).isSome = true →
      (out.map Prod.fst).indexOf d < (out.map Prod.fst).indexOf a) ∧
    (∀ pr ∈ out, getService env pr.1 = some pr) := by
  obtain ⟨st, hrun, rfl⟩ := resolve_ok_run h
  have L := (visit_spec env ((allNames env t).length + 1)).2
    ((targetServices env t).map Prod.fst) ⟨[], [], []⟩ st hrun
  obtain ⟨-, -, Lall, Lnew, -, Linv⟩ := L
  obtain ⟨nd, sync, -, closed, ord⟩ := Linv (inv_init env)
  have hnames : (st.result.filterMap (fun n => getService env n)).map Prod.fst =
      st.result.filter (fun n => (getService env n).isSome) :=
    filterMap_getService_names env st.result
  refine ⟨?_, ?_, ?_, ?_, ?_⟩
  · intro x hreach hres
    obtain ⟨pr, hpr, hr⟩ := hreach
    have htv : pr.1 ∈ st.visited := Lall pr.1 (List.mem_map.mpr ⟨pr, hpr, rfl⟩)
    have hxv : x ∈ st.visited := visited_closed_reach closed pr.1 x hr htv
    rw [hnames]
    exact List.mem_filter.mpr ⟨(sync x).mp hxv, hres⟩
  · rw [hnames]
    exact nd.filter _
  · intro x hx
    rw [hnames] at hx
    obtain ⟨hxr, hres⟩ := List.mem_filter.mp hx
    rcases Lnew x ((sync x).mpr hxr) with habs | ⟨-, d, hd, hr⟩
    · simp at habs
    · obtain ⟨pr, hpr, hfst⟩ := List.mem_map.mp hd
      exact ⟨⟨pr, hpr, hfst ▸ hr⟩, hres⟩
  · intro a s has d hd hres
    obtain ⟨n, hnres, hserv⟩ := List.mem_filterMap.mp has
    have hname : a = n := by
      have := getService_name hserv
      simpa using this
    subst hname
    obtain ⟨l1, l2, hdec⟩ := List.append_of_mem hnres
    have hdl1 : d ∈ l1 := ord l1 a l2 hdec (a, s) hserv d hd
    have hpa : (getService env a).isSome = true := by rw [hserv]; rfl
    have hndd : (List.filter (fun n => (getService env n).isSome) l1 ++
        a :: List.filter (fun n => (getService env n).isSome) l2).Nodup := by
      have h0 : (l1 ++ a :: l2).Nodup := hdec ▸ nd
      have h1 := h0.filter (fun n => (getService env n).isSome)
      rwa [List.filter_append, List.filter_cons, if_pos hpa] at h1
    rw [hnames, hdec, List.filter_append, List.filter_cons, if_pos hpa]
    exact indexOf_lt_of_append hndd (List.mem_filter.mpr ⟨hdl1, hres⟩)
  · intro pr hpr
    obtain ⟨n, _, hserv⟩ := List.mem_filterMap.mp hpr
    have hh := getService_name hserv
    rw [← hh] at hserv
    exact hserv

/-- Every service reachable and resolving is in the output: membership as
a pair. -/
theorem resolve_mem_of_reachable {env : Env} {t : Target}
    {out : List (String × Service)} (h : resolveWakeOrder env t = .ok out)
    {a : String} {p : String × Service}
    (hreach : ReachableFromTarget env t a) (hp : getService env a = some p) :
    p ∈ out := by
  obtain ⟨hcomp, -, -, -, hself⟩ := resolve_ok_facts h
  have hres : (getService env a).isSome = true := by rw [hp]; rfl
  obtain ⟨pr, hprm, hpr1⟩ := List.mem_map.mp (hcomp a hreach hres)
  have hg := hself pr hprm
  rw [hpr1, hp] at hg
  rw [Option.some.inj hg]
  exact hprm

/-- Along a dependency path inside a successful resolution, indices are
monotone: the endpoint never comes later than the start. -/
theorem reach_index_le {env : Env} {t : Target} {out : List (String × Service)}
    (h : resolveWakeOrder env t = .ok out) :
    ∀ x y, Reach env x y → ReachableFromTarget env t x →
      (getService env x).isSome = true → (getService env y).isSome = true →
      (out.map Prod.fst).indexOf y ≤ (out.map Prod.fst).indexOf x := by
  obtain ⟨hcomp, -, -, hord, -⟩ := resolve_ok_facts h
  intro x y hr
  induction hr with
  | refl a => intro _ _ _; exact le_refl _
  | step p hp hb hr ih =>
    rename_i a b c
    intro hreach hresa hresc
    have hresb : (getService env b).isSome = true := by
      cases hr with
      | refl _ => exact hresc
      | step q hq _ _ => rw [hq]; rfl
    have hreachb : ReachableFromTarget env t b := by
      obtain ⟨pr, hpr, hrx⟩ := hreach
      exact ⟨pr, hpr, reach_extend hrx p hp hb⟩
    have hmem : p ∈ out := resolve_mem_of_reachable h hreach hp
    have hp1 : p.1 = a := getService_name hp
    have hlt := hord p.1 p.2 (by exact hmem) b hb hresb
    rw [hp1] at hlt
    exact le_trans (ih hreachb hresb hresc) (le_of_lt hlt)

theorem resolve_acyclic_ok (env : Env) (t : Target) (hA : Acyclic env) :
    ∃ out, resolveWakeOrder env t = .ok out := by
  cases hr : resolveWakeOrder env t with
  | ok out => exact ⟨out, rfl⟩
  | error e =>
    exfalso
    have hrun := resolve_error_run hr
    cases e with
    | outOfFuel => exact resolveRun_not_outOfFuel env t hrun
    | circular m =>
      exact (visit_not_circular env hA ((allNames env t).length + 1)).2
        ((targetServices env t).map Prod.fst) ⟨[], [], []⟩ m
        (by intro x hx; simp at hx) hrun

theorem filterMap_eq_nil_of_none {α β : Type} {f : α → Option β} {l : List α}
    (h : ∀ a ∈ l, f a = none) : l.filterMap f = [] := by
  induction l with
  | nil => rfl
  | cons a l ih =>
    rw [List.filterMap_cons, h a (List.mem_cons_self a l)]
    exact ih (fun b hb => h b (List.mem_cons_of_mem a hb))

theorem filterMap_filter_isSome {α β : Type} (f : α → Option β) (l : List α) :
    l.filterMap f = (l.filter (fun a => (f a).isSome)).filterMap f := by
  induction l with
  | nil => rfl
  | cons a l ih =>
    cases hf : f a with
    | none => simp [List.filterMap_cons, List.filter_cons, hf, ← ih]
    | some b => simp [List.filterMap_cons, List.filter_cons, hf, ← ih]

/-! ## The claims about the dependency resolver -/

/-- C1: For every acyclic dependency graph loaded in an environment,
`resolveWakeOrder(target, environment)` returns every service reachable
from the target set exactly once (the returned services are exactly the
reachable resolving names, each once), and for every edge from a dependent
service to a dependency that resolves in the environment, the dependency's
index in the returned sequence is strictly less than the dependent's
index. -/
theorem C1_resolveWakeOrder_topological (env : Env) (t : Target) (hA : Acyclic env) :
    ∃ out, resolveWakeOrder env t = .ok out ∧
      (∀ x, ReachableFromTarget env t x → (getService env x).isSome = true →
        (out.map Prod.fst).count x = 1) ∧
      (∀ x ∈ out.map Prod.fst, ReachableFromTarget env t x ∧
        (getService env x).isSome = true) ∧
      (∀ a s, (a, s) ∈ out → ∀ d ∈ s.dependsOn, (getService env d).isSome = true →
        (out.map Prod.fst).indexOf d < (out.map Prod.fst).indexOf a) := by
  obtain ⟨out, hok⟩ := resolve_acyclic_ok env t hA
  obtain ⟨hcomp, hnd, hsound, hord, -⟩ := resolve_ok_facts hok
  refine ⟨out, hok, ?_, hsound, hord⟩
  intro x hre hres
  exact List.count_eq_one_of_mem hnd (hcomp x hre hres)

theorem C1_witness :
    Acyclic exEnv ∧
    (∃ out, resolveWakeOrder exEnv Target.all = .ok out ∧
      (∀ x, ReachableFromTarget exEnv Target.all x →
        (getService exEnv x).isSome = true → (out.map Prod.fst).count x = 1) ∧
      (∀ x ∈ out.map Prod.fst, ReachableFromTarget exEnv Target.all x ∧
        (getService exEnv x).isSome = true) ∧
      (∀ a s, (a, s) ∈ out → ∀ d ∈ s.dependsOn,
        (getService exEnv d).isSome = true →
        (out.map Prod.fst).indexOf d < (out.map Prod.fst).indexOf a)) := by
  have hA : Acyclic exEnv := by
    intro n hplus
    obtain ⟨b, ⟨p, hp, hd⟩, -⟩ := hplus
    obtain ⟨q, hq, -, rfl⟩ := getService_mem hp
    rcases List.mem_singleton.mp hq with rfl
    simp [exSvc] at hd
  exact ⟨hA, C1_resolveWakeOrder_topological exEnv Target.all hA⟩

/-- C2: For every dependency graph containing a cycle reachable from the
target set, `resolveWakeOrder` fails with the circular-dependency error
naming a node (the node found in progress), and never returns an order. -/
theorem C2_cycle_circular_error (env : Env) (t : Target)
    (hc : ∃ n, ReachableFromTarget env t n ∧ ReachPlus env n n) :
    ∃ m, resolveWakeOrder env t = .error (.circular m) := by
  cases hr : resolveWakeOrder env t with
  | error e =>
    cases e with
    | circular m => exact ⟨m, rfl⟩
    | outOfFuel => exact absurd hr (resolve_not_outOfFuel env t)
  | ok out =>
    exfalso
    obtain ⟨n, hreach, b, hEdge, hback⟩ := hc
    obtain ⟨p, hp, hb⟩ := hEdge
    have hresn : (getService env n).isSome = true := by rw [hp]; rfl
    have hresb : (getService env b).isSome = true := by
      cases hback with
      | refl _ => exact hresn
      | step q hq _ _ => rw [hq]; rfl
    have hreachb : ReachableFromTarget env t b := by
      obtain ⟨pr, hpr, hrx⟩ := hreach
      exact ⟨pr, hpr, reach_extend hrx p hp hb⟩
    have hle := reach_index_le hr b n hback hreachb hresb hresn
    obtain ⟨-, -, -, hord, -⟩ := resolve_ok_facts hr
    have hmem : p ∈ out := resolve_mem_of_reachable hr hreach hp
    have hp1 : p.1 = n := getService_name hp
    have hlt := hord p.1 p.2 (by exact hmem) b hb hresb
    rw [hp1] at hlt
    omega

theorem C2_witness :
    (∃ n, ReachableFromTarget cycEnv (Target.single "a") n ∧ ReachPlus cycEnv n n) ∧
    (∃ m, resolveWakeOrder cycEnv (Target.single "a") = .error (.circular m)) := by
  have hgs : getService cycEnv "a" = some ("a", cycSvc) := rfl
  have hmem : ("a", cycSvc) ∈ targetServices cycEnv (Target.single "a") := by decide
  have hdep : "a" ∈ cycSvc.dependsOn := by decide
  have hc : ∃ n, ReachableFromTarget cycEnv (Target.single "a") n ∧
      ReachPlus cycEnv n n :=
    ⟨"a", ⟨("a", cycSvc), hmem, Reach.refl "a"⟩,
      "a", ⟨("a", cycSvc), hgs, hdep⟩, Reach.refl "a"⟩
  exact ⟨hc, C2_cycle_circular_error cycEnv (Target.single "a") hc⟩

/-- C3: During resolution, a `dependsOn` entry that does not resolve in
the environment contributes no element to the returned sequence (every
returned element resolves), and never causes the resolution to fail
(resolution succeeds on every acyclic graph, dangling entries included;
the only failure is a genuine cycle among resolving services). -/
theorem C3_dangling_deps_skipped (env : Env) (t : Target) :
    (∀ out, resolveWakeOrder env t = .ok out →
      ∀ d, (getService env d).isSome = false → d ∉ out.map Prod.fst) ∧
    (Acyclic env → ∃ out, resolveWakeOrder env t = .ok out) := by
  constructor
  · intro out hok d hres hmem
    obtain ⟨-, -, hsound, -, -⟩ := resolve_ok_facts hok
    have hsum := (hsound d hmem).2
    rw [hres] at hsum
    cases hsum
  · exact resolve_acyclic_ok env t

theorem C3_witness :
    resolveWakeOrder ghostEnv Target.all = .ok [("g", ghostSvc)] ∧
    (getService ghostEnv "ghost").isSome = false ∧
    "ghost" ∉ ([("g", ghostSvc)] : List (String × Service)).map Prod.fst :=
  ⟨rfl, rfl,
    (C3_dangling_deps_skipped ghostEnv Target.all).1 [("g", ghostSvc)] rfl "ghost" rfl⟩

/-- C10: When the target is an explicit list of names, names that do not
resolve in the environment are dropped before traversal: the result is the
wake order of the remaining names, and a list of only unknown names yields
the empty sequence, not an error. -/
theorem C10_unknown_target_names_dropped (env : Env) (l : List String) :
    resolveWakeOrder env (.names l) =
      resolveWakeOrder env (.names (l.filter (fun n => (getService env n).isSome))) ∧
    ((∀ n ∈ l, getService env n = none) →
      resolveWakeOrder env (.names l) = .ok []) := by
  constructor
  · have htgt : targetServices env (.names l) =
        targetServices env (.names (l.filter (fun n => (getService env n).isSome))) :=
      filterMap_filter_isSome (fun n => getService env n) l
    rw [resolveWakeOrder_eq_run, resolveWakeOrder_eq_run]
    suffices hrun : resolveRun env (.names l) =
        resolveRun env (.names (l.filter (fun n => (getService env n).isSome))) by
      rw [hrun]
    have h1 := (visit_fuel_mono env ((allNames env (.names l)).length + 1)
      (max ((allNames env (.names l)).length + 1)
        ((allNames env (.names (l.filter (fun n => (getService env n).isSome)))).length + 1))
      (le_max_left _ _)).2
      ((targetServices env (.names l)).map Prod.fst) ⟨[], [], []⟩
      (resolveRun env (.names l)) rfl (resolveRun_not_outOfFuel env (.names l))
    have h2 := (visit_fuel_mono env
      ((allNames env (.names (l.filter (fun n => (getService env n).isSome)))).length + 1)
      (max ((allNames env (.names l)).length + 1)
        ((allNames env (.names (l.filter (fun n => (getService env n).isSome)))).length + 1))
      (le_max_right _ _)).2
      ((targetServices env (.names (l.filter (fun n => (getService env n).isSome)))).map
        Prod.fst) ⟨[], [], []⟩
      (resolveRun env (.names (l.filter (fun n => (getService env n).isSome)))) rfl
      (resolveRun_not_outOfFuel env (.names (l.filter (fun n => (getService env n).isSome))))
    rw [htgt] at h1
    exact h1.symm.trans h2
  · intro hall
    have htgt : targetServices env (.names l) = [] := filterMap_eq_nil_of_none hall
    rw [resolveWakeOrder_eq_run]
    unfold resolveRun
    rw [htgt]
    rfl

theorem C10_witness :
    (∀ n ∈ ["ghost"], getService exEnv n = none) ∧
    resolveWakeOrder exEnv (Target.names ["ghost"]) = .ok [] := by
  have hall : ∀ n ∈ ["ghost"], getService exEnv n = none := by decide
  exact ⟨hall, (C10_unknown_target_names_dropped exEnv ["ghost"]).2 hall⟩

/-! ## The claims about the orchestrator -/

/-- C4: The raw health-probe classification of `getHealth` maps every
received HTTP response with status below 500 (404 included) to `live`,
every response with status at least 500 to `failed`, and a network-level
failure producing no HTTP response (including the transport timeout) to
`dead`. -/
theorem C4_raw_probe_classification (d s : Nat) (u : Option Nat) (m : String) :
    (d ≤ AXIOS_TIMEOUT_MS → s < 500 →
      (performHealthCheck (.respondsAfter d s u)).state = ServiceState.live) ∧
    (d ≤ AXIOS_TIMEOUT_MS → 500 ≤ s →
      (performHealthCheck (.respondsAfter d s u)).state = ServiceState.failed) ∧
    ((performHealthCheck (.failsAfter d m)).state = ServiceState.dead) ∧
    (AXIOS_TIMEOUT_MS < d →
      (performHealthCheck (.respondsAfter d s u)).state = ServiceState.dead) := by
  refine ⟨?_, ?_, rfl, ?_⟩
  · intro hd hs
    unfold performHealthCheck
    dsimp only
    rw [if_pos hd]
    dsimp only
    rw [if_neg (by omega)]
  · intro hd hs
    unfold performHealthCheck
    dsimp only
    rw [if_pos hd]
    dsimp only
    rw [if_pos hs]
  · intro hd
    unfold performHealthCheck
    dsimp only
    rw [if_neg (not_le.mpr hd)]

theorem C4_witness :
    ((50 : Nat) ≤ AXIOS_TIMEOUT_MS ∧ (404 : Nat) < 500 ∧
      (performHealthCheck (.respondsAfter 50 404 none)).state = ServiceState.live) ∧
    ((performHealthCheck (.respondsAfter 80 503 (some 12))).state = ServiceState.failed) ∧
    ((performHealthCheck (.failsAfter 30 "connect ECONNREFUSED")).state =
      ServiceState.dead) := by
  refine ⟨⟨by decide, by decide,
    (C4_raw_probe_classification 50 404 none "x").1 (by decide) (by decide)⟩,
    (C4_raw_probe_classification 80 503 (some 12) "x").2.1 (by decide) (by decide),
    (C4_raw_probe_classification 30 404 none "connect ECONNREFUSED").2.2.1⟩

/-- C5 counterexample: in the threshold path, a probe whose raw
classification is `live` with a 6-second round trip is reported `live`,
not `waking` (the `health.state === LIVE` early return precedes the slow
check), and a probe aborted by the 10-second transport timeout is reported
`waking`, not `dead` (its 10000 ms round trip exceeds the 5000 ms slow
threshold). -/
theorem C5_counterexample :
    checkHealthWithTimeout 300 (.respondsAfter 6000 200 none) = ServiceState.live ∧
    checkHealthWithTimeout 300 (.failsAfter 10000 "timeout of 10000ms exceeded") =
      ServiceState.waking ∧
    ServiceState.live ≠ ServiceState.waking ∧
    ServiceState.waking ≠ ServiceState.dead := by decide

/-- C5 (amended): In the threshold path used by `wake` and `getStatus`, a
probe whose raw classification is `live` is reported `live` regardless of
round-trip time; a received response with status 503 or any 5xx is
reported `waking`; a network-error probe is reported `dead` when its
round trip is within the 5-second threshold and `waking` when it exceeds
it; a probe aborted by the fixed 10-second transport timeout is reported
`waking`. -/
theorem C5_threshold_classification_amended (ts : Nat) :
    (∀ b, (performHealthCheck b).state = ServiceState.live →
      checkHealthWithTimeout ts b = ServiceState.live) ∧
    (∀ d s u, 500 ≤ s → d ≤ AXIOS_TIMEOUT_MS →
      checkHealthWithTimeout ts (.respondsAfter d s u) = ServiceState.waking) ∧
    (∀ d m, d ≤ HEALTH_CHECK_TIMEOUT →
      checkHealthWithTimeout ts (.failsAfter d m) = ServiceState.dead) ∧
    (∀ d m, HEALTH_CHECK_TIMEOUT < d →
      checkHealthWithTimeout ts (.failsAfter d m) = ServiceState.waking) ∧
    (∀ d s u, AXIOS_TIMEOUT_MS < d →
      checkHealthWithTimeout ts (.respondsAfter d s u) = ServiceState.waking) := by
  refine ⟨?_, ?_, ?_, ?_, ?_⟩
  · intro b hb
    simp only [checkHealthWithTimeout]
    rw [if_pos hb]
  · intro d s u hs hd
    have hph : performHealthCheck (ServiceBehavior.respondsAfter d s u) =
        { state := ServiceState.failed, statusCode := some s, responseTime := d,
          error := none, uptime := u } := by
      unfold performHealthCheck
      dsimp only
      rw [if_pos hd]
      rw [if_pos hs]
    simp only [checkHealthWithTimeout, hph]
    rw [if_neg (fun hh => ServiceState.noConfusion hh)]
    by_cases hslow : HEALTH_CHECK_TIMEOUT < d
    · rw [if_pos hslow]
    · rw [if_neg hslow]
      rw [if_pos (Or.inr hs)]
  · intro d m hd
    simp only [checkHealthWithTimeout, performHealthCheck]
    rw [if_neg (fun hh => ServiceState.noConfusion hh), if_neg (by omega)]
  · intro d m hd
    simp only [checkHealthWithTimeout, performHealthCheck]
    rw [if_neg (fun hh => ServiceState.noConfusion hh), if_pos hd]
  · intro d s u hd
    have hph : performHealthCheck (ServiceBehavior.respondsAfter d s u) =
        { state := ServiceState.dead, statusCode := none,
          responseTime := AXIOS_TIMEOUT_MS, error := some "timeout of 10000ms exceeded",
          uptime := none } := by
      unfold performHealthCheck
      dsimp only
      rw [if_neg (not_le.mpr hd)]
    simp only [checkHealthWithTimeout, hph]
    rw [if_neg (fun hh => ServiceState.noConfusion hh), if_pos (by decide)]

theorem C5_witness :
    checkHealthWithTimeout 300 (.respondsAfter 100 204 none) = ServiceState.live ∧
    checkHealthWithTimeout 300 (.respondsAfter 100 503 none) = ServiceState.waking ∧
    checkHealthWithTimeout 300 (.failsAfter 200 "connect ECONNREFUSED") =
      ServiceState.dead ∧
    checkHealthWithTimeout 300 (.failsAfter 6000 "read ETIMEDOUT") =
      ServiceState.waking ∧
    checkHealthWithTimeout 300 (.respondsAfter 20000 200 none) = ServiceState.waking :=
  ⟨(C5_threshold_classification_amended 300).1 _ (by decide),
    (C5_threshold_classification_amended 300).2.1 100 503 none (by decide) (by decide),
    (C5_threshold_classification_amended 300).2.2.1 200 _ (by decide),
    (C5_threshold_classification_amended 300).2.2.2.1 6000 _ (by decide),
    (C5_threshold_classification_amended 300).2.2.2.2 20000 200 none (by decide)⟩

/-- C6: `wake` never throws (it is a total function into `WakeOutcome`):
a resolution failure is returned as a structured failed result carrying
the error message; an empty resolved order returns success with an empty
result list; otherwise the returned `success` is true exactly when every
recorded result state is `live`. -/
theorem C6_wake_structured_outcome (env : Env) (t : Target)
    (behaviors : String → ServiceBehavior) (ts : Nat) :
    (∀ e, resolveWakeOrder env t = .error e →
      wake env t behaviors ts =
        { success := false, error := some (errorMessage e), services := [] }) ∧
    (resolveWakeOrder env t = .ok [] →
      wake env t behaviors ts = { success := true, error := none, services := [] }) ∧
    (∀ l, resolveWakeOrder env t = .ok l →
      ((wake env t behaviors ts).success = true ↔
        ∀ r ∈ (wake env t behaviors ts).services, r.status = ServiceState.live)) := by
  refine ⟨?_, ?_, ?_⟩
  · intro e he
    unfold wake
    rw [he]
  · intro he
    unfold wake
    rw [he]
    rfl
  · intro l hl
    unfold wake
    rw [hl]
    dsimp only
    cases l with
    | nil => simp
    | cons p l =>
      rw [if_neg (by simp)]
      dsimp only
      simp only [List.all_eq_true, decide_eq_true_eq]

theorem C6_witness :
    resolveWakeOrder exEnv Target.all = .ok [("auth", exSvc)] ∧
    ((wake exEnv Target.all exBehaviors 300).success = true ↔
      ∀ r ∈ (wake exEnv Target.all exBehaviors 300).services,
        r.status = ServiceState.live) :=
  ⟨rfl, (C6_wake_structured_outcome exEnv Target.all exBehaviors 300).2.2
    [("auth", exSvc)] rfl⟩

/-- C7 (code evaluation): the caller-supplied per-call timeout has no
effect on the health probe.  `_checkHealthWithTimeout` computes
`overallTimeoutMs` from it but never uses it, and the axios call uses the
fixed 10000 ms socket timeout, so the classification is independent of
the option; in particular, with a caller timeout of 1 second a response
arriving after 8 seconds is still awaited and classified `live`. -/
theorem C7_caller_timeout_ignored :
    (∀ ts1 ts2 b, checkHealthWithTimeout ts1 b = checkHealthWithTimeout ts2 b) ∧
    checkHealthWithTimeout 1 (.respondsAfter 8000 200 none) = ServiceState.live := by
  exact ⟨fun ts1 ts2 b => rfl, by decide⟩

/-! ## The claim about the monitor loop -/

theorem monitorLoopT_succ (p : Nat → PollOutcome) (endTime f t c : Nat) :
    monitorLoopT p endTime (f + 1) t c =
      if t < endTime then
        pollEvent (p c) (c + 1) :: monitorLoopT p endTime f (t + POLL_INTERVAL_MS) (c + 1)
      else [] := rfl

theorem monitorLoopT_length_indep (endTime : Nat) (p q : Nat → PollOutcome) :
    ∀ f t c, (monitorLoopT p endTime f t c).length =
      (monitorLoopT q endTime f t c).length := by
  intro f
  induction f with
  | zero => intro t c; rfl
  | succ f ih =>
    intro t c
    rw [monitorLoopT_succ, monitorLoopT_succ]
    by_cases ht : t < endTime
    · rw [if_pos ht, if_pos ht, List.length_cons, List.length_cons, ih]
    · rw [if_neg ht, if_neg ht]

theorem monitorLoopT_get (p : Nat → PollOutcome) (endTime : Nat) :
    ∀ f t c k, k < (monitorLoopT p endTime f t c).length →
      (monitorLoopT p endTime f t c).get? k =
        some (pollEvent (p (c + k)) (c + k + 1)) := by
  intro f
  induction f with
  | zero =>
    intro t c k hk
    simp [monitorLoopT] at hk
  | succ f ih =>
    intro t c k hk
    rw [monitorLoopT_succ] at hk ⊢
    by_cases ht : t < endTime
    · rw [if_pos ht] at hk ⊢
      cases k with
      | zero => simp
      | succ k =>
        rw [List.length_cons] at hk
        have hk' : k < (monitorLoopT p endTime f (t + POLL_INTERVAL_MS) (c + 1)).length := by
          omega
        rw [List.get?_cons_succ, ih (t + POLL_INTERVAL_MS) (c + 1) k hk']
        have hcc : c + 1 + k = c + (k + 1) := by omega
        rw [hcc]
    · rw [if_neg ht] at hk
      simp at hk

/-- C9: In the monitor loop, the failure of any single status poll never
aborts the loop: the number of polls attempted is the same for every
outcome assignment (failures do not shorten the schedule), the k-th
scheduled poll produces its event — a rendered snapshot on success, a
reported warning on failure — with every later poll still present, and
one final snapshot fetch is emitted after the budget expires. -/
theorem C9_monitor_poll_resilient (duration : Nat) (polls : Nat → PollOutcome)
    (finalPoll : PollOutcome) :
    (∀ polls', (monitorLoopT polls' duration duration 0 0).length =
      (monitorLoopT polls duration duration 0 0).length) ∧
    (∀ k, k < (monitorLoopT polls duration duration 0 0).length →
      (monitorServicesForDuration duration polls finalPoll).get? k =
        some (pollEvent (polls k) (k + 1))) ∧
    (monitorServicesForDuration duration polls finalPoll).get?
      (monitorLoopT polls duration duration 0 0).length =
        some (finalEvent finalPoll) := by
  refine ⟨fun polls' => monitorLoopT_length_indep duration polls' polls duration 0 0,
    ?_, ?_⟩
  · intro k hk
    unfold monitorServicesForDuration
    rw [List.get?_append hk]
    have hbase := monitorLoopT_get polls duration duration 0 0 k hk
    simpa using hbase
  · unfold monitorServicesForDuration
    exact List.get?_concat_length _ _

theorem C9_witness :
    1 < (monitorLoopT exPolls 25000 25000 0 0).length ∧
    exPolls 1 = PollOutcome.fail "connect ECONNREFUSED" ∧
    (monitorServicesForDuration 25000 exPolls exFinalPoll).get? 1 =
      some (pollEvent (exPolls 1) 2) ∧
    (monitorServicesForDuration 25000 exPolls exFinalPoll).get?
      (monitorLoopT exPolls 25000 25000 0 0).length =
        some (finalEvent exFinalPoll) := by
  have hk : 1 < (monitorLoopT exPolls 25000 25000 0 0).length := by decide
  exact ⟨hk, by decide,
    (C9_monitor_poll_resilient 25000 exPolls exFinalPoll).2.1 1 hk,
    (C9_monitor_poll_resilient 25000 exPolls exFinalPoll).2.2⟩

/-! ## The claim about registry validation -/

theorem validateServicesOf_nil (e : String) : validateServicesOf e [] = .ok () := rfl

theorem validateServicesOf_cons (e n : String) (s : RawService)
    (rest : List (String × RawService)) :
    validateServicesOf e ((n, s) :: rest) =
      match validateService n s e with
      | .error er => .error er
      | .ok _ => validateServicesOf e rest := rfl

theorem validateEnvs_nil : validateEnvs [] = .ok () := rfl

theorem validateEnvs_cons_nonMap (e : String) (rest : List (String × EnvVal)) :
    validateEnvs ((e, EnvVal.nonMap) :: rest) = .error (.envNotObject e) := rfl

theorem validateEnvs_cons_map (e : String) (l : List (String × RawService))
    (rest : List (String × EnvVal)) :
    validateEnvs ((e, EnvVal.map l) :: rest) =
      match validateServicesOf e l with
      | .error er => .error er
      | .ok _ => validateEnvs rest := rfl

theorem validateService_error_cases {n : String} {s : RawService} {e : String}
    {er : ValidationError} (h : validateService n s e = .error er) :
    (er = .missingUrl n e ∧ s.url = none) ∨
    (er = .missingHealth n ∧ s.url.isSome = true ∧ s.health = none) ∨
    (er = .dependsOnNotArray n ∧ s.dependsOn = some DependsVal.nonArr) := by
  unfold validateService at h
  by_cases hu : s.url.isNone
  · rw [if_pos hu] at h
    injection h with h3
    exact Or.inl ⟨h3.symm, Option.isNone_iff_eq_none.mp hu⟩
  · rw [if_neg hu] at h
    have hus : s.url.isSome = true := by
      cases hx : s.url with
      | none => rw [hx] at hu; exact absurd rfl hu
      | some v => rfl
    by_cases hh : s.health.isNone
    · rw [if_pos hh] at h
      injection h with h3
      exact Or.inr (Or.inl ⟨h3.symm, hus, Option.isNone_iff_eq_none.mp hh⟩)
    · rw [if_neg hh] at h
      cases hd : s.dependsOn with
      | none => rw [hd] at h; cases h
      | some dv =>
        cases dv with
        | arr l => rw [hd] at h; cases h
        | nonArr =>
          rw [hd] at h
          injection h with h3
          exact Or.inr (Or.inr ⟨h3.symm, rfl⟩)

theorem validateService_ok_health {n : String} {s : RawService} {e : String}
    (h : validateService n s e = .ok ()) : s.health.isSome = true := by
  unfold validateService at h
  by_cases hu : s.url.isNone
  · rw [if_pos hu] at h; cases h
  · rw [if_neg hu] at h
    by_cases hh : s.health.isNone
    · rw [if_pos hh] at h; cases h
    · cases hx : s.health with
      | none => rw [hx] at hh; exact absurd rfl hh
      | some v => rfl

theorem validateServicesOf_ok {e : String} : ∀ {l : List (String × RawService)},
    validateServicesOf e l = .ok () →
    ∀ n s, (n, s) ∈ l → s.health.isSome = true := by
  intro l
  induction l with
  | nil => intro _ n s hm; simp at hm
  | cons p rest ih =>
    obtain ⟨pn, ps⟩ := p
    intro h n s hm
    rw [validateServicesOf_cons] at h
    cases hv : validateService pn ps e with
    | error er => rw [hv] at h; cases h
    | ok u =>
      cases u
      rw [hv] at h
      dsimp only at h
      rcases List.mem_cons.mp hm with heq | hm'
      · cases heq
        exact validateService_ok_health hv
      · exact ih h n s hm'

theorem validateServicesOf_error {e : String} : ∀ {l : List (String × RawService)}
    {er : ValidationError}, validateServicesOf e l = .error er →
    ∃ n s, (n, s) ∈ l ∧
      ((er = .missingUrl n e ∧ s.url = none) ∨
       (er = .missingHealth n ∧ s.url.isSome = true ∧ s.health = none) ∨
       (er = .dependsOnNotArray n ∧ s.dependsOn = some DependsVal.nonArr)) := by
  intro l
  induction l with
  | nil => intro er h; rw [validateServicesOf_nil] at h; cases h
  | cons p rest ih =>
    obtain ⟨pn, ps⟩ := p
    intro er h
    rw [validateServicesOf_cons] at h
    cases hv : validateService pn ps e with
    | error er' =>
      rw [hv] at h
      dsimp only at h
      injection h with h3
      subst h3
      exact ⟨pn, ps, List.mem_cons_self _ _, validateService_error_cases hv⟩
    | ok u =>
      cases u
      rw [hv] at h
      dsimp only at h
      obtain ⟨n, s, hm, hc⟩ := ih h
      exact ⟨n, s, List.mem_cons_of_mem _ hm, hc⟩

theorem validateEnvs_ok : ∀ {envs : List (String × EnvVal)},
    validateEnvs envs = .ok () →
    ∀ e v, (e, v) ∈ envs → ∃ l, v = EnvVal.map l ∧
      ∀ n s, (n, s) ∈ l → s.health.isSome = true := by
  intro envs
  induction envs with
  | nil => intro _ e v hm; simp at hm
  | cons p rest ih =>
    obtain ⟨pe, pv⟩ := p
    intro h e v hm
    cases pv with
    | nonMap => rw [validateEnvs_cons_nonMap] at h; cases h
    | map l =>
      rw [validateEnvs_cons_map] at h
      cases hv : validateServicesOf pe l with
      | error er => rw [hv] at h; cases h
      | ok u =>
        cases u
        rw [hv] at h
        dsimp only at h
        rcases List.mem_cons.mp hm with heq | hm'
        · cases heq
          exact ⟨l, rfl, validateServicesOf_ok hv⟩
        · exact ih h e v hm'

theorem validateEnvs_error_cases : ∀ {envs : List (String × EnvVal)}
    {er : ValidationError}, validateEnvs envs = .error er →
    (∃ e, er = .envNotObject e ∧ (e, EnvVal.nonMap) ∈ envs) ∨
    (∃ e l n s, (e, EnvVal.map l) ∈ envs ∧ (n, s) ∈ l ∧
      ((er = .missingUrl n e ∧ s.url = none) ∨
       (er = .missingHealth n ∧ s.url.isSome = true ∧ s.health = none) ∨
       (er = .dependsOnNotArray n ∧ s.dependsOn = some DependsVal.nonArr))) := by
  intro envs
  induction envs with
  | nil => intro er h; rw [validateEnvs_nil] at h; cases h
  | cons p rest ih =>
    obtain ⟨pe, pv⟩ := p
    intro er h
    cases pv with
    | nonMap =>
      rw [validateEnvs_cons_nonMap] at h
      injection h with h3
      exact Or.inl ⟨pe, h3.symm, List.mem_cons_self _ _⟩
    | map l =>
      rw [validateEnvs_cons_map] at h
      cases hv : validateServicesOf pe l with
      | error er' =>
        rw [hv] at h
        dsimp only at h
        injection h with h3
        subst h3
        obtain ⟨n, s, hm, hc⟩ := validateServicesOf_error hv
        exact Or.inr ⟨pe, l, n, s, List.mem_cons_self _ _, hm, hc⟩
      | ok u =>
        cases u
        rw [hv] at h
        dsimp only at h
        rcases ih h with ⟨e, he, hmem⟩ | ⟨e, l', n, s, hmem, hm, hc⟩
        · exact Or.inl ⟨e, he, List.mem_cons_of_mem _ hmem⟩
        · exact Or.inr ⟨e, l', n, s, List.mem_cons_of_mem _ hmem, hm, hc⟩

/-- C8 counterexample: on a registry whose only service lacks both its
url and its health endpoint, loading fails — but with the URL validation
error, not one mentioning the missing health field (the source checks
`url` first), refuting the claim that the error always names the missing
health field. -/
theorem C8_counterexample :
    LacksHealth rcReg ∧
    validateRegistry rcReg = .error (ValidationError.missingUrl "a" "dev") ∧
    ¬(∃ n, validateRegistry rcReg = .error (ValidationError.missingHealth n)) ∧
    (loadParsed emptyRegState (some rcReg) 0).2 =
      some "Failed to load registry: Service \"a\" in environment \"dev\" must have a URL" := by
  refine ⟨⟨"dev", [("a", rcSvc)], "a", rcSvc, by decide, by decide, rfl⟩, rfl, ?_, by decide⟩
  rintro ⟨n, hn⟩
  have hbase : validateRegistry rcReg =
      .error (ValidationError.missingUrl "a" "dev") := rfl
  have heq := hbase.symm.trans hn
  injection heq with h3
  cases h3

/-- C8 (amended): For every registry input in which some service lacks
the health endpoint field, loading fails with a ValidationError that
truthfully reports a structural violation of the input — the missing
health field when that is the first violation in declaration order, but
possibly a missing url (checked first), a non-object environment or a
malformed dependsOn encountered earlier — and on any such failure the
registry's internal state is left unchanged. -/
theorem C8_missing_health_fails_load_amended (st : RegistryState) (r : RawRegistry)
    (now : Nat) (h : LacksHealth r) :
    ∃ e, validateRegistry r = .error e ∧ TruthfulFor r e ∧
      loadParsed st (some r) now =
        (st, some ("Failed to load registry: " ++ validationMessage e)) := by
  obtain ⟨envName, l, n, s, henv, hsrv, hh⟩ := h
  cases hserv : r.services with
  | none => rw [hserv] at henv; simp at henv
  | some envs =>
    rw [hserv] at henv
    dsimp only [Option.getD_some] at henv
    have hval : validateRegistry r ≠ .ok () := by
      intro hok
      unfold validateRegistry at hok
      rw [hserv] at hok
      obtain ⟨l', hl', hall⟩ := validateEnvs_ok hok envName (EnvVal.map l) henv
      injection hl' with hl2
      subst hl2
      have := hall n s hsrv
      rw [hh] at this
      cases this
    cases hv : validateRegistry r with
    | ok u => cases u; exact absurd hv hval
    | error e =>
      refine ⟨e, rfl, ?_, ?_⟩
      · have hve : validateEnvs envs = .error e := by
          unfold validateRegistry at hv
          rw [hserv] at hv
          exact hv
        rcases validateEnvs_error_cases hve with ⟨e', he', hmem⟩ | ⟨e', l', n', s', hmem, hm, hc⟩
        · subst he'
          show (e', EnvVal.nonMap) ∈ r.services.getD []
          rw [hserv]
          exact hmem
        · rcases hc with ⟨he', hu⟩ | ⟨he', hus, hhn⟩ | ⟨he', hdn⟩
          · subst he'
            exact ⟨l', s', by rw [hserv]; exact hmem, hm, hu⟩
          · subst he'
            exact ⟨e', l', s', by rw [hserv]; exact hmem, hm, hus, hhn⟩
          · subst he'
            exact ⟨e', l', s', by rw [hserv]; exact hmem, hm, hdn⟩
      · unfold loadParsed
        dsimp only
        rw [hv]

theorem C8_witness :
    LacksHealth rwReg ∧
    (∃ e, validateRegistry rwReg = .error e ∧ TruthfulFor rwReg e ∧
      loadParsed emptyRegState (some rwReg) 0 =
        (emptyRegState, some ("Failed to load registry: " ++ validationMessage e))) := by
  have hl : LacksHealth rwReg :=
    ⟨"dev", [("a", rwSvc)], "a", rwSvc, by decide, by decide, rfl⟩
  exact ⟨hl, C8_missing_health_fails_load_amended emptyRegState rwReg 0 hl⟩

end WilfredWake
